import Mathlib

/-!
Verification development for the `ldscore/parse.py` module of the ldsc
repository: a shallow embedding of its parsing, path-expansion, merging,
binning and annotation-overlap functions, together with theorems checking
the documented behaviour of each component.

Modelling conventions, used throughout:

* Python exceptions are modelled by the `Except PyError` monad; each raise
  site becomes an explicit `.error`.
* Floating-point data values are modelled as exact integers (`Int`): every
  operation the module performs on data values is an order comparison, an
  addition or subtraction of `1`, or a product, all of which are faithfully
  represented on `Int`.
* Filesystem access is abstracted by explicit parameters: a readability
  predicate `acc : String → Bool` (for `os.access(_, 4)`) and reader
  functions mapping a resolved path (and compression tag) to the parsed
  table.  Everything downstream of the raw read is translated from the
  source.
* Python 2 peculiarities that the code exercises (cross-type comparisons,
  `np.sum` applied to a generator, list pre-sizing) are modelled at the
  point where they occur, with a comment citing the behaviour.
-/

namespace LdscParse

/-- Python exception values (constructor = exception class, payload = message). -/
inductive PyError where
  | valueError (msg : String)
  | ioError (msg : String)
  | typeError (msg : String)
  | indexError (msg : String)
  | nameError (msg : String)
  | attributeError (msg : String)
  | keyError (msg : String)
deriving Repr, DecidableEq

instance {ε α : Type} [DecidableEq ε] [DecidableEq α] : DecidableEq (Except ε α) := fun
  | .error e, .error f =>
    if h : e = f then .isTrue (by rw [h]) else .isFalse (fun hc => h (by cases hc; rfl))
  | .error _, .ok _ => .isFalse (fun hc => Except.noConfusion hc)
  | .ok _, .error _ => .isFalse (fun hc => Except.noConfusion hc)
  | .ok a, .ok b =>
    if h : a = b then .isTrue (by rw [h]) else .isFalse (fun hc => h (by cases hc; rfl))

/-! ## Path expander (`exp_array` and the three regexes)

The module compiles three regexes:
  `arr_re       = re.compile('\x5c\x7b\x5cd+:\x5cd+\x5c\x7d')`   (a full `\x7blo:hi\x7d` marker)
  `arr_left_re  = re.compile('\x5c\x7b\x5cd+:')`                 (an opening `\x7blo:` fragment)
  `arr_right_re = re.compile(':\x5cd+\x5c\x7d')`                 (a closing `:hi\x7d` fragment)
All three are simple enough that a direct character scanner reproduces
`findall`, `sub` and `search` exactly: at each position the pattern either
matches (greedy digit runs are forced, since each digit run is followed by a
non-digit literal) or fails, `findall`/`sub` then resume after the match,
`search` returns the first match.  The scanners below walk the string one
position at a time with a fuel argument bounded by the string length (every
step consumes at least one character, so `fuel = length` is always enough). -/

/-- The character `{` (written via its code point). -/
def lbrace : Char := Char.ofNat 123

/-- The character `}` (written via its code point). -/
def rbrace : Char := Char.ofNat 125

/-- Python `int` applied to a nonempty string of decimal digits. -/
def digitsToNat (ds : List Char) : Nat :=
  ds.foldl (fun acc c => acc * 10 + (c.toNat - 48)) 0

/-- Try to match the full-marker regex at the head of the
string: `\x7b`, one or more digits, `:`, one or more digits, `\x7d`.  Returns the
two digit runs and the remainder after the match. -/
def matchMarker (s : List Char) : Option (List Char × List Char × List Char) :=
  match s with
  | [] => none
  | c :: t =>
    if c = lbrace then
      let d1 := t.takeWhile Char.isDigit
      if d1 = [] then none else
      match t.dropWhile Char.isDigit with
      | [] => none
      | c2 :: t2 =>
        if c2 = ':' then
          let d2 := t2.takeWhile Char.isDigit
          if d2 = [] then none else
          match t2.dropWhile Char.isDigit with
          | [] => none
          | c3 :: t3 => if c3 = rbrace then some (d1, d2, t3) else none
        else none
    else none

/-- `len(arr_re.findall(s))`: number of non-overlapping full markers, scanning
left to right and resuming after each match. -/
def countMarkersFuel : Nat → List Char → Nat
  | 0, _ => 0
  | _, [] => 0
  | fuel + 1, c :: cs =>
    match matchMarker (c :: cs) with
    | some (_, _, rest) => 1 + countMarkersFuel fuel rest
    | none => countMarkersFuel fuel cs

/-- `arr_re.sub(repl, s)`: replace every full marker by `repl`. -/
def subMarkerFuel (repl : List Char) : Nat → List Char → List Char
  | 0, s => s
  | _, [] => []
  | fuel + 1, c :: cs =>
    match matchMarker (c :: cs) with
    | some (_, _, rest) => repl ++ subMarkerFuel repl fuel rest
    | none => c :: subMarkerFuel repl fuel cs

/-- Try to match the opening-fragment regex `\x7b\x5cd+:` at the head of the string;
returns the digit run (i.e. `group(0)[1:-1]`). -/
def matchLeftAt (s : List Char) : Option (List Char) :=
  match s with
  | [] => none
  | c :: t =>
    if c = lbrace then
      let d := t.takeWhile Char.isDigit
      if d = [] then none else
      match t.dropWhile Char.isDigit with
      | c2 :: _ => if c2 = ':' then some d else none
      | [] => none
    else none

/-- `arr_left_re.search(s)`: digit run of the first opening fragment. -/
def searchLeftFuel : Nat → List Char → Option (List Char)
  | 0, _ => none
  | _, [] => none
  | fuel + 1, c :: cs =>
    match matchLeftAt (c :: cs) with
    | some d => some d
    | none => searchLeftFuel fuel cs

/-- Try to match the closing-fragment regex `:\x5cd+\x5c\x7d` at the head of the
string; returns the digit run (i.e. `group(0)[1:-1]`). -/
def matchRightAt (s : List Char) : Option (List Char) :=
  match s with
  | [] => none
  | c :: t =>
    if c = ':' then
      let d := t.takeWhile Char.isDigit
      if d = [] then none else
      match t.dropWhile Char.isDigit with
      | c2 :: _ => if c2 = rbrace then some d else none
      | [] => none
    else none

/-- `arr_right_re.search(s)`: digit run of the first closing fragment. -/
def searchRightFuel : Nat → List Char → Option (List Char)
  | 0, _ => none
  | _, [] => none
  | fuel + 1, c :: cs =>
    match matchRightAt (c :: cs) with
    | some d => some d
    | none => searchRightFuel fuel cs

/-- `exp_array(fh)`: process array notation `\x7b1:22\x7d` in filenames.
Direct translation of the source: count full markers; more than one is a
`ValueError`; none returns `[fh]`; exactly one reads `lo` from the first
opening fragment and `hi` from the first closing fragment (`.group(0)` on a
failed `search` would be an `AttributeError` on `None`) and substitutes
`str(i)` for the marker for `i in xrange(lo, hi)`. -/
def exp_array (fh : String) : Except PyError (List String) :=
  let s := fh.data
  let n := countMarkersFuel s.length s
  if n > 1 then
    .error (.valueError "Can only have one array \x7ba:b\x7d per filename.")
  else if n = 0 then
    .ok [fh]
  else
    match searchLeftFuel s.length s, searchRightFuel s.length s with
    | some dlo, some dhi =>
      let lo := digitsToNat dlo
      let hi := digitsToNat dhi
      .ok ((List.range' lo (hi - lo)).map
        (fun i => String.mk (subMarkerFuel (Nat.repr i).data s.length s)))
    | _, _ => .error (.attributeError "NoneType object has no attribute group")

/-- A character list free of both brace characters: the side condition
under which the three scanners agree on where the unique marker sits. -/
def NoBrace (l : List Char) : Prop := ∀ c ∈ l, c ≠ lbrace ∧ c ≠ rbrace

instance (l : List Char) : Decidable (NoBrace l) :=
  List.decidableBAll _ l

/-! ## `series_eq` and `which_compression` -/

/-- `series_eq(x, y)`: compare series, `False` if lengths differ, otherwise
element-wise equality of all entries. -/
def series_eq (x y : List String) : Bool :=
  x.length = y.length && (x.zip y).all (fun p => p.1 = p.2)

/-- `which_compression(fh)`: probe `fh+'.bz2'`, then `fh+'.gz'`, then `fh`
for readability (`os.access(_, 4)`, abstracted as `acc`); return the matched
suffix and compression tag, or raise `IOError` when none is readable. -/
def which_compression (acc : String → Bool) (fh : String) :
    Except PyError (String × Option String) :=
  if acc (fh ++ ".bz2") then .ok (".bz2", some "bz2")
  else if acc (fh ++ ".gz") then .ok (".gz", some "gzip")
  else if acc fh then .ok ("", none)
  else .error (.ioError ("Could not open " ++ fh ++ "[./gz/bz2]"))

/-! ## Cross-file merger (`_read_fromlist`)

A parsed dataset is modelled as a key column named `SNP` plus the remaining
named data columns (float values modelled as `Int`).  `parsefunc` is the
per-file parser; the claims quantify over file lists whose individual parses
succeed, so it is total here. -/

/-- A parsed dataset: the `SNP` key column and the other named columns. -/
structure DF where
  snp : List String
  cols : List (String × List Int)
deriving Repr, DecidableEq

/-- `y.rename(columns=\x7bc: c+'_'+str(i) for c in y.columns if c != 'SNP'\x7d)`:
suffix every non-key column name with `_i`. -/
def renameSuffix (i : Nat) (cols : List (String × List Int)) : List (String × List Int) :=
  cols.map (fun p => (p.1 ++ "_" ++ Nat.repr i, p.2))

/-- The loop body of `_read_fromlist` for files after the first: validate the
key column against the first file's, drop it, and rename the rest. -/
def checkTail (firstSnp : List String) (noun : String) :
    Nat → List DF → Except PyError (List (List (String × List Int)))
  | _, [] => .ok []
  | i, y :: ys =>
    if series_eq y.snp firstSnp then
      -- keep SNP column from only the first file: y = y.drop(['SNP'], axis=1)
      (checkTail firstSnp noun (i + 1) ys).map (renameSuffix i y.cols :: ·)
    else
      .error (.valueError (noun ++ " files must have identical SNP columns."))

/-- `_read_fromlist(flist, parsefunc, noun)`: sideways concatenation.  Each
file is parsed; every file after the first must have a key column
`series_eq` to the first file's (else `ValueError` naming the dataset kind);
the survivors are column-renamed with `_i` and pasted side by side
(`pd.concat(axis=1)`, which raises on an empty list). -/
def _read_fromlist {α : Type} (flist : List α) (parsefunc : α → DF) (noun : String) :
    Except PyError DF :=
  match flist.map parsefunc with
  | [] => .error (.valueError "No objects to concatenate")
  | y0 :: ys =>
    (checkTail y0.snp noun 1 ys).map
      (fun rest => { snp := y0.snp, cols := renameSuffix 0 y0.cols ++ rest.flatten })

/-! ## Generic tables and the chromosome mergers (`_ldscore_chr`, `_cts_chr`)

The LD-score and cts readers handle arbitrary whitespace tables, so rows
carry tagged values (string or float-as-`Int`). -/

/-- A tabular cell: a Python string or float (modelled as `Int`). -/
inductive Val where
  | s (x : String)
  | n (x : Int)
deriving Repr, DecidableEq

/-- A generic data frame: ordered column names and rows of cells. -/
structure PDF where
  cols : List String
  rows : List (List Val)
deriving Repr, DecidableEq

/-- Drop the named columns (used where the source guards with membership
tests, so the pandas missing-label error cannot fire). -/
def dropColumns (names : List String) (df : PDF) : PDF :=
  { cols := df.cols.filter (fun c => ¬ names.contains c),
    rows := df.rows.map (fun r =>
      ((df.cols.zip r).filter (fun p => ¬ names.contains p.1)).map (·.2)) }

/-- `df.drop(labels, axis=1)` without a membership guard: pandas raises when
a label is absent. -/
def dropColumnsChecked (names : List String) (df : PDF) : Except PyError PDF :=
  if names.all (fun c => df.cols.contains c) then .ok (dropColumns names df)
  else .error (.valueError "labels not contained in axis")

/-- Position of a named column (`KeyError` when absent). -/
def findColumn (df : PDF) (c : String) : Except PyError Nat :=
  match df.cols.indexOf? c with
  | some i => .ok i
  | none => .error (.keyError c)

/-- `_ldscore_single(fh, compression)`: read a single LD Score file and drop
the legacy `MAF`/`CM` pair when both are present.  The raw
`read_csv(fh, header=0, compression=...)` is abstracted as `reader`. -/
def _ldscore_single (reader : String → Option String → Except PyError PDF)
    (fh : String) (compression : Option String) : Except PyError PDF := do
  let x ← reader fh compression
  if x.cols.contains "MAF" ∧ x.cols.contains "CM" then
    pure (dropColumns ["MAF", "CM"] x)
  else
    pure x

/-- An entry of the pre-sized Python list `[0 for _ in xrange(...)]`: the
integer placeholder or a data frame written over it. -/
inductive PdObj where
  | int (k : Int)
  | df (t : PDF)
deriving Repr, DecidableEq

/-- Python list item assignment `arr[i] = v` (IndexError when out of range). -/
def listSet {α : Type} : List α → Nat → α → Except PyError (List α)
  | [], _, _ => .error (.indexError "list assignment index out of range")
  | _ :: t, 0, v => .ok (v :: t)
  | h :: t, n + 1, v => (listSet t n v).map (h :: ·)

/-- `pd.concat(objs)` over the pre-sized list: raises on an empty list and on
any leftover integer placeholder (a non-NDFrame object).  Shards with equal
schemas are stacked; the claims never exercise pandas' outer alignment of
differing schemas, which is modelled as an error. -/
def pd_concat_rows (objs : List PdObj) : Except PyError PDF :=
  match objs with
  | [] => .error (.valueError "No objects to concatenate")
  | first :: _ =>
    if objs.any (fun o => match o with | .int _ => true | .df _ => false) then
      .error (.typeError "cannot concatenate a non-NDFrame object")
    else
      match first with
      | .int _ => .error (.typeError "cannot concatenate a non-NDFrame object")
      | .df d0 =>
        let dfs := objs.filterMap (fun o => match o with | .df t => some t | .int _ => none)
        if dfs.all (fun t => t.cols = d0.cols) then
          .ok { cols := d0.cols, rows := (dfs.map (·.rows)).flatten }
        else
          .error (.valueError "mismatched shard schemas")

/-- Python 2 ordering on cells: numbers sort below strings; numbers by value,
strings lexicographically. -/
def valLe : Val → Val → Bool
  | .n a, .n b => a ≤ b
  | .n _, .s _ => true
  | .s _, .n _ => false
  | .s a, .s b => a ≤ b

/-- Lexicographic row ordering on the `(CHR, BP)` cells, given their column
positions: the comparison `x.sort(['CHR', 'BP'])` performs. -/
def rowKeyLe (iCHR iBP : Nat) (r1 r2 : List Val) : Bool :=
  let a1 := r1.getD iCHR (.n 0)
  let a2 := r2.getD iCHR (.n 0)
  if a1 = a2 then valLe (r1.getD iBP (.n 0)) (r2.getD iBP (.n 0))
  else valLe a1 a2

/-- `drop_duplicates(subset='SNP')`: keep the first row for each key cell. -/
def dropDupByIdx (i : Nat) (seen : List Val) : List (List Val) → List (List Val)
  | [] => []
  | r :: rs =>
    if seen.contains (r.getD i (.n 0)) then dropDupByIdx i seen rs
    else r :: dropDupByIdx i (r.getD i (.n 0) :: seen) rs

/-- The filling loop of `_ldscore_chr`: for each expanded shard path, append
the `.l2.ldscore` suffix, resolve compression, parse, and write the result
into slot `i` of the pre-sized list. -/
def ldscoreFill (acc : String → Bool) (reader : String → Option String → Except PyError PDF) :
    List PdObj → Nat → List String → Except PyError (List PdObj)
  | arr, _, [] => .ok arr
  | arr, i, f :: fs => do
    let full := f ++ ".l2.ldscore"
    let (s, compression) ← which_compression acc full
    let df ← _ldscore_single reader (full ++ s) compression
    let arr2 ← listSet arr i (.df df)
    ldscoreFill acc reader arr2 (i + 1) fs

/-- `_ldscore_chr(fh)`: expand the pattern, read each shard, stack, sort by
`(CHR, BP)`, drop `CHR`/`BP`, drop duplicate `SNP`s keeping the first.
Note the source pre-sizes the shard list with `len(fh)` — the length of the
pattern STRING — not the number of expanded shards. -/
def _ldscore_chr (acc : String → Bool) (reader : String → Option String → Except PyError PDF)
    (fh : String) : Except PyError PDF := do
  let fhs ← exp_array fh
  -- chr_ld = [0 for _ in xrange(len(fh))]
  let init : List PdObj := List.replicate fh.length (.int 0)
  let arr ← ldscoreFill acc reader init 0 fhs
  let x ← pd_concat_rows arr
  -- x.sort(['CHR', 'BP']): stable ascending sort on the two key columns
  let iCHR ← findColumn x "CHR"
  let iBP ← findColumn x "BP"
  let xs := { x with rows := x.rows.insertionSort (fun r1 r2 => rowKeyLe iCHR iBP r1 r2 = true) }
  let xd ← dropColumnsChecked ["CHR", "BP"] xs
  let iSNP ← findColumn xd "SNP"
  pure { xd with rows := dropDupByIdx iSNP [] xd.rows }

/-- The filling loop of `_cts_chr`: note the source resolves the compression
of the bare path and then parses each shard with `_ldscore_single` (not the
unused `_cts_single`), and does not append the resolved suffix. -/
def ctsFill (acc : String → Bool) (reader : String → Option String → Except PyError PDF) :
    List PdObj → Nat → List String → Except PyError (List PdObj)
  | arr, _, [] => .ok arr
  | arr, i, f :: fs => do
    let (_, compression) ← which_compression acc f
    let df ← _ldscore_single reader f compression
    let arr2 ← listSet arr i (.df df)
    ctsFill acc reader arr2 (i + 1) fs

/-- `_cts_chr(fh)`: expand the pattern, read each shard (via
`_ldscore_single`), and stack vertically.  The shard list is again pre-sized
with `len(fh)`, the length of the pattern string. -/
def _cts_chr (acc : String → Bool) (reader : String → Option String → Except PyError PDF)
    (fh : String) : Except PyError PDF := do
  let fhs ← exp_array fh
  -- chr_cts = [0 for _ in xrange(len(fh))]
  let init : List PdObj := List.replicate fh.length (.int 0)
  let arr ← ctsFill acc reader init 0 fhs
  pd_concat_rows arr

/-! ## Continuous-annotation binner (`_cut_cts`, `cts_dummies`) -/

/-- A whole column of a cts frame: all-string (the `SNP` identifiers) or
all-float (a covariate, floats modelled as `Int`). -/
inductive Col where
  | strs (xs : List String)
  | nums (xs : List Int)
deriving Repr, DecidableEq

/-- `np.max` over a (nonempty) numeric column. -/
def listMaxInt : List Int → Option Int
  | [] => none
  | x :: xs => some (xs.foldl max x)

/-- `np.min` over a (nonempty) numeric column. -/
def listMinInt : List Int → Option Int
  | [] => none
  | x :: xs => some (xs.foldl min x)

/-- `str` applied to a bound value when building interval labels. -/
def qstr (q : Int) : String := toString q

/-- The assignment a `pd.cut(vec, bins, labels)` call makes for one value:
the label of the first interval `(bins[i], bins[i+1]]` containing it (cut's
default `right=True` half-open-left convention; `searchsorted` side='left'),
`none` (NaN) when the value is at or below the lowest edge or above the
highest. -/
def pdCutAssign : List Int → List String → Int → Option String
  | e1 :: e2 :: es, l :: ls, v =>
    if e1 < v ∧ v ≤ e2 then some l else pdCutAssign (e2 :: es) ls v
  | _, _, _ => none

/-- Adjacent nondecreasing check: `not (np.diff(bins) < 0).any()`. -/
def adjNondecreasing : List Int → Bool
  | a :: b :: t => decide (a ≤ b) && adjNondecreasing (b :: t)
  | _ => true

/-- `pd.cut(vec, bins=..., labels=...)`: validate the bins and the label
list (a pandas `Categorical` requires unique categories), then assign every
value.  Returns the category list together with the per-value assignment. -/
def pd_cut (vec : List Int) (bins : List Int) (labels : List String) :
    Except PyError (List String × List (Option String)) :=
  if ¬ adjNondecreasing bins then
    .error (.valueError "bins must increase monotonically.")
  else if labels.length + 1 ≠ bins.length then
    .error (.valueError "Labels must be same length as resulting bins")
  else if ¬ labels.Nodup then
    .error (.valueError "Categorical categories must be unique")
  else
    .ok (labels, vec.map (pdCutAssign bins labels))

/-- The `cut_breaks` list after `_cut_cts`'s sentinel appends: `max+1` when
every break is `≤ max`, then `min-1` when every break of the updated list
is `≥ min` (the Python code appends to `cut_breaks` and `name_breaks`
under one `if`; here the two lists are built by separate functions with
the same conditions). -/
def cutBreaksWithSentinels (breaks : List Int) (mx mn : Int) : List Int :=
  let cb2 := if breaks.all (fun b => b ≤ mx) then breaks ++ [mx + 1] else breaks
  if cb2.all (fun b => mn ≤ b) then cb2 ++ [mn - 1] else cb2

/-- The `name_breaks` list after the sentinel appends (`max` / `min`
labels, same conditions as `cutBreaksWithSentinels`). -/
def nameBreaksWithSentinels (breaks : List Int) (mx mn : Int) : List Int :=
  let cb2 := if breaks.all (fun b => b ≤ mx) then breaks ++ [mx + 1] else breaks
  let nb2 := if breaks.all (fun b => b ≤ mx) then breaks ++ [mx] else breaks
  if cb2.all (fun b => mn ≤ b) then nb2 ++ [mn] else nb2

/-- The sorted bin-edge list `pd.cut` receives: `sorted(cut_breaks)`. -/
def cutBinsOf (breaks : List Int) (mx mn : Int) : List Int :=
  (cutBreaksWithSentinels breaks mx mn).insertionSort (fun a b => a ≤ b)

/-- `_cut_cts(vec, breaks, n)`: cut a cts annotation into bins.  Sentinel
bounds `max+1` / `min-1` (labelled `max` / `min`) are appended when every
break lies weakly inside the data range; labels join consecutive sorted
bound names with `_` and are prefixed with `n`.

The string-column case records what Python 2 does when `cts_dummies` hands
this function the `SNP` column: `np.max`/`np.min` of a string column are
strings, and a list compares below a `str` (type names `'list' < 'str'`), so
`np.all(cut_breaks >= max_cts)` is `False`, `np.all(cut_breaks <= min_cts)`
is `True`, and the range check raises unconditionally. -/
def _cut_cts (vec : Col) (breaks : List Int) (n : String) :
    Except PyError (List String × List (Option String)) :=
  match vec with
  | .strs xs =>
    match xs with
    | [] => .error (.valueError "zero-size array to reduction operation")
    | _ :: _ => .error (.valueError "All breaks lie outside the range of cts variable.")
  | .nums xs =>
    match listMaxInt xs, listMinInt xs with
    | some max_cts, some min_cts =>
      if (breaks.all (fun b => max_cts ≤ b)) || (breaks.all (fun b => b ≤ min_cts)) then
        .error (.valueError "All breaks lie outside the range of cts variable.")
      else
        let cb3 := cutBreaksWithSentinels breaks max_cts min_cts
        let nb3 := nameBreaksWithSentinels breaks max_cts min_cts
        -- name_breaks = ['min'] + map(str, sorted(name_breaks)[1:-1]) + ['max']
        let sortedNames := nb3.insertionSort (fun a b => a ≤ b)
        let nameStrs := ["min"] ++ ((sortedNames.drop 1).dropLast.map qstr) ++ ["max"]
        -- levels = [n + '_'.join(name_breaks[i:i+2]) for i in xrange(len(cut_breaks)-1)]
        let levels := (List.range (cb3.length - 1)).map
          (fun i => n ++ (nameStrs.getD i "" ++ "_" ++ nameStrs.getD (i + 1) ""))
        pd_cut xs (cutBinsOf breaks max_cts min_cts) levels
    | _, _ => .error (.valueError "zero-size array to reduction operation")

/-- `pd.get_dummies` over the categorical cut result: one indicator column
per category (in category order), one row per value; a NaN row is all
zeros. -/
def get_dummies (cut : List String × List (Option String)) : List String × List (List Int) :=
  (cut.1, cut.2.map (fun a => cut.1.map (fun l => if a = some l then 1 else 0)))

/-- The output frame of `cts_dummies`: the pasted `SNP` column, the
indicator column names, and the indicator rows. -/
structure DummyFrame where
  snp : Col
  dummyCols : List String
  rows : List (List Int)
deriving Repr, DecidableEq

/-- Horizontal paste of the per-covariate indicator blocks. -/
def pasteBlocks : List (List (List Int)) → List (List Int)
  | [] => []
  | b :: bs => bs.foldl (fun acc x => acc.zipWith (· ++ ·) x) b

/-- `cts_dummies(cts, breaks)` (default `names=None`, so
`names = cts.columns[0:]`): cut each of the FIRST `len(breaks)` columns —
starting with column 0, the `SNP` column the docstring promises — into
dummies, paste `cts.SNP` with the indicator blocks, and raise the
internal-consistency error when some row's (numeric) sum is zero. -/
def cts_dummies (cts : List (String × Col)) (breaks : List (List Int)) :
    Except PyError DummyFrame := do
  if breaks.length ≠ cts.length - 1 then
    throw (.valueError "Wrong number of breaks.")
  let names := cts.map (·.1)
  -- zip(range(len(breaks)), breaks, names): triples (i, breaks[i], names[i])
  let dummies ← (List.range breaks.length).mapM (fun i => do
    let cut ← _cut_cts (cts.getD i ("", Col.nums [])).2 (breaks.getD i []) (names.getD i "")
    pure (get_dummies cut))
  -- cts = pd.concat([cts.SNP] + dummies, axis=1)
  let snpCol ← (match cts.find? (fun p => p.1 = "SNP") with
    | some p => Except.ok p.2
    | none => Except.error (.attributeError "SNP"))
  let rows := pasteBlocks (dummies.map (·.2))
  -- if (cts.sum(axis=1) == 0).any(): the non-numeric SNP column is skipped
  if rows.any (fun r => r.sum = 0) then
    throw (.valueError "Some SNPs have no annotation in. This is a bug!")
  pure { snp := snpCol, dummyCols := (dummies.map (·.1)).flatten, rows := rows }

/-! ## Variant-count files (`_M_chr`, `M_fromlist`) -/

/-- A numpy-level value: the integer `0` a builtin `sum` of an empty
generator returns, or a float vector. -/
inductive NpVal where
  | int (k : Int)
  | arr (xs : List Int)
deriving Repr, DecidableEq

/-- `np.sum((_M_single(fh) for fh in fhs), axis=0)`: `np.sum` handed a
GENERATOR falls back to Python's builtin `sum` (numpy `fromnumeric.sum`,
`isinstance(a, _gentype)` branch — which also ignores `axis`).  Builtin
`sum` starts from the integer `0`: an empty generator yields `0`, otherwise
the first per-file float list is added to `0` and raises `TypeError`.
`reader` abstracts `_M_single` (read one line of whitespace-separated
floats). -/
def py_sum_gen (reader : String → Except PyError (List Int)) (fhs : List String) :
    Except PyError NpVal :=
  match fhs with
  | [] => .ok (.int 0)
  | f :: _ => do
    let _ ← reader f
    .error (.typeError "unsupported operand type for +: int and list")

/-- `_M_chr(fh, N, common)`: build the `.l\x7bN\x7d.M[_5_50]` suffix, expand the
pattern, sum the shard vectors with `np.sum` over a generator, and reshape
to one row — `np.array(x).reshape((1, len(x)))`, where `len` of the integer
`0` raises `TypeError`. -/
def _M_chr (reader : String → Except PyError (List Int)) (fh : String) (N : Nat)
    (common : Bool) : Except PyError (List (List Int)) := do
  let suffix := ".l" ++ Nat.repr N ++ ".M" ++ (if common then "_5_50" else "")
  let fhs ← exp_array (fh ++ suffix)
  let x ← py_sum_gen reader fhs
  match x with
  | .int _ => .error (.typeError "object of type int has no len()")
  | .arr v => .ok [v]

/-- `M_fromlist(flist, N, common)`: horizontal stack of the per-pattern
results. -/
def M_fromlist (reader : String → Except PyError (List Int)) (flist : List String)
    (N : Nat) (common : Bool) : Except PyError (List (List Int)) := do
  let ms ← flist.mapM (fun fh => _M_chr reader fh N common)
  pure (pasteBlocks ms)

/-! ## Annotation overlap aggregator (`annot`) -/

/-- A parsed `.annot` file after `annot_parser`: per-row `SNP` key and float
annotation values (the `CHR`/`BP`/`CM` columns are already dropped). -/
structure AnnotDF where
  rows : List (String × List Int)
deriving Repr, DecidableEq

/-- `np.matrix(df.ix[:, 1:])`: the non-key columns as a row-major matrix. -/
def AnnotDF.mat (d : AnnotDF) : List (List Int) := d.rows.map (·.2)

/-- `np.hstack`: raises on an empty list and on mismatched row counts,
otherwise pastes the blocks row-wise. -/
def np_hstack (ms : List (List (List Int))) : Except PyError (List (List Int)) :=
  match ms with
  | [] => .error (.valueError "need at least one array to concatenate")
  | m :: rest =>
    if rest.all (fun x => x.length = m.length) then .ok (pasteBlocks ms)
    else .error (.valueError "all the input array dimensions must match exactly")

/-- Number of columns of a row-major matrix. -/
def width (A : List (List Int)) : Nat := (A.headD []).length

/-- Column `i` of a row-major matrix (absent entries read as `0`). -/
def column (A : List (List Int)) (i : Nat) : List Int := A.map (fun r => r.getD i 0)

/-- `np.transpose`. -/
def transposeM (A : List (List Int)) : List (List Int) :=
  (List.range (width A)).map (fun i => column A i)

/-- Dot product of two equal-length vectors. -/
def dotL (xs ys : List Int) : Int := ((xs.zip ys).map (fun p => p.1 * p.2)).sum

/-- `np.dot` on row-major matrices. -/
def np_dot (B C : List (List Int)) : List (List Int) :=
  B.map (fun row => (List.range (width C)).map (fun j => dotL row (column C j)))

/-- The overlap matrix as the specification words it: a square matrix whose
`(i, j)` entry is the dot product over variants (rows) of annotation
columns `i` and `j`. -/
def overlapGram (A : List (List Int)) : List (List Int) :=
  (List.range (width A)).map (fun i =>
    (List.range (width A)).map (fun j =>
      (A.map (fun r => r.getD i 0 * r.getD j 0)).sum))

/-- Python list indexing (`IndexError` out of range). -/
def pyIndex {α : Type} (l : List α) (i : Nat) : Except PyError α :=
  match l.get? i with
  | some x => .ok x
  | none => .error (.indexError "list index out of range")

/-- `sub_chr`: the helper the per-chromosome branch of `annot` calls.  It is
neither defined in the module nor imported, so evaluating the name raises
`NameError` before anything else in the enclosing expression. -/
def sub_chr (_fh : String) (_c : Nat) : Except PyError String :=
  .error (.nameError "global name sub_chr is not defined")

/-- The matrix sum `sum(y)`: Python's builtin `sum` of a list of matrices;
an empty list gives the integer `0`. -/
inductive PyMat where
  | intZero
  | mat (m : List (List Int))
deriving Repr, DecidableEq

/-- Element-wise matrix addition (numpy broadcast error on shape mismatch). -/
def matAdd (a b : List (List Int)) : Except PyError (List (List Int)) :=
  if a.length = b.length ∧ (a.zip b).all (fun p => p.1.length = p.2.length) then
    .ok ((a.zip b).map (fun p => p.1.zipWith (· + ·) p.2))
  else .error (.valueError "operands could not be broadcast together")

/-- `sum(y)` over the accumulated per-chromosome matrices. -/
def pySum (ms : List (List (List Int))) : Except PyError PyMat :=
  match ms with
  | [] => .ok .intZero
  | m :: rest => (rest.foldlM matAdd m).map .mat

/-- The suffix-resolution loop of `annot`'s single-file branch:
`annot_s, annot_comp_single = which_compression(fh + annot_suffix[i])`,
`annot_suffix[i] += annot_s`.  Yields each file's resolved path and
compression. -/
def annotResolveSingle (acc : String → Bool) (fh_list : List String) :
    Except PyError (List (String × Option String)) :=
  fh_list.mapM (fun fh => do
    let (s, comp) ← which_compression acc (fh ++ ".annot")
    pure (fh ++ ".annot" ++ s, comp))

/-- The parsing stage of `annot`'s single-file branch: resolve every file,
resolve the optional frequency file once, and run `annot_parser`
(abstracted as `parser`) on each. -/
def annotParseSingle
    (parser : String → Option String → Option String → Option String → Except PyError AnnotDF)
    (acc : String → Bool) (fh_list : List String) (frqfile : Option String) :
    Except PyError (List AnnotDF) := do
  let resolved ← annotResolveSingle acc fh_list
  match frqfile with
  | some f => do
    let (fs, fcomp) ← which_compression acc (f ++ ".frq")
    resolved.mapM (fun p => parser p.1 p.2 (some (f ++ ".frq" ++ fs)) fcomp)
  | none => resolved.mapM (fun p => parser p.1 p.2 none none)

/-- `annot(fh_list, num, frqfile)`: parse `.annot` files and return an
overlap matrix together with `M_tot`.  `parser` abstracts `annot_parser`
(arguments: resolved path, compression, optional resolved frq path and its
compression); `acc` abstracts `os.access` inside `which_compression`.  The
per-chromosome branch (`num` not `None`) resolves suffixes from the
chromosome-1 files via `sub_chr`, loops `chr` over `xrange(1, num+1)`
accumulating `np.dot(m.T, m)` and row counts, and finally takes `sum(y)`;
the single-file branch resolves each file directly and computes one
`np.dot(m.T, m)`. -/
def annot
    (parser : String → Option String → Option String → Option String → Except PyError AnnotDF)
    (acc : String → Bool) (fh_list : List String) (num : Option Nat)
    (frqfile : Option String) : Except PyError (PyMat × Nat) := do
  match num with
  | some n =>
    -- for i, fh in enumerate(fh_list): first_fh = sub_chr(fh, 1) + annot_suffix[i]
    let resolved ← fh_list.mapM (fun fh => do
      let base ← sub_chr fh 1
      let (s, comp) ← which_compression acc (base ++ ".annot")
      pure (fh, ".annot" ++ s, comp))
    let frqResolved ← (match frqfile with
      | some f => do
        let base ← sub_chr f 1
        let (s, comp) ← which_compression acc (base ++ ".frq")
        pure (some (".frq" ++ s, comp))
      | none => pure none)
    let step := fun (st : List (List (List Int)) × Nat) (chr : Nat) => do
      let df_list ← resolved.mapM (fun t => do
        match frqfile, frqResolved with
        | some f, some fr => do
          let p ← sub_chr t.1 chr
          let fp ← sub_chr f chr
          parser (p ++ t.2.1) t.2.2 (some (fp ++ fr.1)) fr.2
        | _, _ => do
          let p ← sub_chr t.1 chr
          parser (p ++ t.2.1) t.2.2 none none)
      let m ← np_hstack (df_list.map AnnotDF.mat)
      let first ← pyIndex df_list 0
      pure (st.1 ++ [np_dot (transposeM m) m], st.2 + first.rows.length)
    let yM ← (List.range' 1 n).foldlM step ([], 0)
    let x ← pySum yM.1
    pure (x, yM.2)
  | none =>
    let df_list ← annotParseSingle parser acc fh_list frqfile
    let m ← np_hstack (df_list.map AnnotDF.mat)
    let first ← pyIndex df_list 0
    pure (.mat (np_dot (transposeM m) m), first.rows.length)

/-! ## Concrete instances used in witnesses and counterexamples -/

/-- A parser producing an empty annotation table (the degenerate `annot`
paths it instantiates never consult it). -/
def trivParser : String → Option String → Option String → Option String → Except PyError AnnotDF :=
  fun _ _ _ _ => .ok ⟨[]⟩

/-- A filesystem on which nothing is readable. -/
def noAccess : String → Bool := fun _ => false

/-- A filesystem on which every candidate is readable. -/
def allAccess : String → Bool := fun _ => true

/-- A 10-variant, 3-category 0/1 annotation table (the spec's running
example for the overlap aggregator). -/
def annotSample : AnnotDF :=
  ⟨[("rs1", [1, 0, 0]), ("rs2", [1, 0, 0]), ("rs3", [1, 1, 0]), ("rs4", [1, 1, 0]),
    ("rs5", [0, 1, 0]), ("rs6", [0, 1, 1]), ("rs7", [0, 1, 1]), ("rs8", [0, 0, 1]),
    ("rs9", [0, 0, 1]), ("rs10", [0, 0, 1])]⟩

/-- A reader that parses every annotation path to `annotSample`. -/
def annotSampleParser : String → Option String → Option String → Option String → Except PyError AnnotDF :=
  fun _ _ _ _ => .ok annotSample

/-- A one-row LD-score shard with `CHR`/`BP`/`SNP`/`L2` columns. -/
def ldSample : PDF :=
  ⟨["CHR", "BP", "SNP", "L2"], [[.n 1, .n 100, .s "rs1", .n 7]]⟩

/-- A reader parsing every LD-score path to `ldSample`. -/
def ldSampleReader : String → Option String → Except PyError PDF :=
  fun _ _ => .ok ldSample

/-- A one-row cts shard that carries both legacy `MAF` and `CM` columns. -/
def ctsRaw : PDF :=
  ⟨["SNP", "MAF", "CM", "ANN"], [[.s "rs1", .n 1, .n 2, .n 3]]⟩

/-- A reader parsing every cts path to `ctsRaw`. -/
def ctsRawReader : String → Option String → Except PyError PDF :=
  fun _ _ => .ok ctsRaw

/-- A reader parsing every `.M` shard to the float list `[10, 20]`. -/
def mSampleReader : String → Except PyError (List Int) := fun _ => .ok [10, 20]

/-- The cts table after `_cts_chr` has run `ctsRaw` through
`_ldscore_single`: the `MAF`/`CM` pair is gone. -/
def ctsDropped : PDF := ⟨["SNP", "ANN"], [[.s "rs1", .n 3]]⟩

/-- A filesystem on which exactly `foo.gz` is readable. -/
def gzOnly : String → Bool := fun s => s = "foo.gz"

/-- A two-variant dataset with key column `rs1, rs2`. -/
def dfA : DF := ⟨["rs1", "rs2"], [("L2", [1, 2])]⟩

/-- The same variants as `dfA` with the key column in the other order. -/
def dfB : DF := ⟨["rs2", "rs1"], [("L2", [3, 4])]⟩

/-- The expansion of the pattern `chr\x7b1:23\x7d`. -/
def expand22 : List String :=
  ["chr1", "chr2", "chr3", "chr4", "chr5", "chr6", "chr7", "chr8", "chr9", "chr10",
   "chr11", "chr12", "chr13", "chr14", "chr15", "chr16", "chr17", "chr18", "chr19",
   "chr20", "chr21", "chr22"]

/-! # Helper lemmas -/

theorem bindErrorL {α β : Type} (e : PyError) (f : α → Except PyError β) :
    (Except.error e >>= f) = Except.error e := rfl

theorem bindOkL {α β : Type} (a : α) (f : α → Except PyError β) :
    (Except.ok a >>= f) = f a := rfl

theorem isOk_error {α : Type} (e : PyError) : (Except.error e : Except PyError α).isOk = false := rfl

theorem isOk_false_of_error {α : Type} (x : Except PyError α) :
    (∃ e, x = .error e) → x.isOk = false := by
  rintro ⟨e, rfl⟩; rfl

theorem error_of_isOk_false {α : Type} (x : Except PyError α) :
    x.isOk = false → ∃ e, x = .error e := by
  cases x with
  | error e => exact fun _ => ⟨e, rfl⟩
  | ok a => intro h; cases h

theorem isOk_false_bind {α β : Type} (x : Except PyError α) (f : α → Except PyError β)
    (h : x.isOk = false) : (x >>= f).isOk = false := by
  obtain ⟨e, rfl⟩ := error_of_isOk_false x h; rfl

theorem series_eq_refl (x : List String) : series_eq x x = true := by
  induction x with
  | nil => rfl
  | cons a s ih =>
    unfold series_eq at ih ⊢
    simp_all
    exact ih

/-- `series_eq` decides exact list equality: equal lengths plus element-wise
equality of the zipped pairs is equivalent to equality of the lists. -/
theorem series_eq_iff (x y : List String) : series_eq x y = true ↔ x = y := by
  induction x generalizing y with
  | nil =>
    cases y with
    | nil => simp [series_eq]
    | cons b t => simp [series_eq]
  | cons a s ih =>
    cases y with
    | nil => simp [series_eq]
    | cons b t =>
      constructor
      · intro hs
        simp only [series_eq, List.length_cons, List.zip_cons_cons, List.all_cons,
          Bool.and_eq_true, decide_eq_true_eq] at hs
        obtain ⟨hlen, hab, hall⟩ := hs
        have hst : series_eq s t = true := by
          simp only [series_eq, Bool.and_eq_true, decide_eq_true_eq]
          exact ⟨by omega, hall⟩
        rw [hab, (ih t).mp hst]
      · intro he
        cases he
        exact series_eq_refl (a :: s)

theorem listSet_length {α : Type} (v : α) :
    ∀ (l : List α) (i : Nat) (l2 : List α), listSet l i v = .ok l2 → l2.length = l.length := by
  intro l
  induction l with
  | nil => intro i l2 h; simp [listSet] at h
  | cons a t ih =>
    intro i l2 h
    cases i with
    | zero =>
      simp only [listSet] at h
      cases h; simp
    | succ n =>
      simp only [listSet, Except.map] at h
      cases hr : listSet t n v with
      | error e => rw [hr] at h; cases h
      | ok l3 =>
        rw [hr] at h
        cases h
        simpa using ih n l3 hr

theorem listSet_oob {α : Type} (v : α) :
    ∀ (l : List α) (i : Nat), l.length ≤ i →
      listSet l i v = .error (.indexError "list assignment index out of range") := by
  intro l
  induction l with
  | nil => intro i _; rfl
  | cons a t ih =>
    intro i h
    cases i with
    | zero => simp at h
    | succ n =>
      simp only [listSet]
      rw [ih n (by simpa using h)]
      rfl

theorem listSet_inb {α : Type} (v : α) :
    ∀ (l : List α) (i : Nat), i < l.length → ∃ l2, listSet l i v = .ok l2 := by
  intro l
  induction l with
  | nil => intro i h; simp at h
  | cons a t ih =>
    intro i h
    cases i with
    | zero => exact ⟨v :: t, rfl⟩
    | succ n =>
      obtain ⟨l2, hl2⟩ := ih n (by simpa using h)
      exact ⟨a :: l2, by simp only [listSet, hl2, Except.map]⟩

/-- The `_ldscore_chr` filling loop fails whenever the pre-sized list is too
short for the shards that remain (either some earlier read fails, or the
out-of-range assignment raises `IndexError`). -/
theorem ldscoreFill_overflow (acc : String → Bool)
    (reader : String → Option String → Except PyError PDF) :
    ∀ (fs : List String) (arr : List PdObj) (i : Nat),
      arr.length < i + fs.length → i ≤ arr.length →
      (ldscoreFill acc reader arr i fs).isOk = false := by
  intro fs
  induction fs with
  | nil => intro arr i h1 h2; simp at h1; omega
  | cons f ft ih =>
    intro arr i h1 h2
    simp only [ldscoreFill]
    cases hw : which_compression acc (f ++ ".l2.ldscore") with
    | error e => rfl
    | ok sc =>
      rw [bindOkL]
      cases hr : _ldscore_single reader (f ++ ".l2.ldscore" ++ sc.1) sc.2 with
      | error e => rfl
      | ok df =>
        rw [bindOkL]
        rcases Nat.lt_or_ge i arr.length with hlt | hge
        · obtain ⟨arr2, ha2⟩ := listSet_inb (PdObj.df df) arr i hlt
          rw [ha2, bindOkL]
          have hlen := listSet_length (PdObj.df df) arr i arr2 ha2
          exact ih arr2 (i + 1) (by simp at h1 ⊢; omega) (by omega)
        · have : arr.length ≤ i := hge
          rw [listSet_oob (PdObj.df df) arr i this]
          rfl

theorem checkTail_error (firstSnp : List String) (noun : String) :
    ∀ (ys : List DF) (i : Nat), (∃ y ∈ ys, y.snp ≠ firstSnp) →
      checkTail firstSnp noun i ys =
        .error (.valueError (noun ++ " files must have identical SNP columns.")) := by
  intro ys
  induction ys with
  | nil => rintro i ⟨y, hy, _⟩; cases hy
  | cons y ys ih =>
    rintro i ⟨z, hz, hne⟩
    simp only [checkTail]
    cases hse : series_eq y.snp firstSnp with
    | false => simp
    | true =>
      have hy : y.snp = firstSnp := (series_eq_iff _ _).mp hse
      rcases List.mem_cons.mp hz with rfl | hmem
      · exact absurd hy hne
      · simp only [if_true]
        rw [ih (i + 1) ⟨z, hmem, hne⟩]
        rfl

theorem checkTail_ok (firstSnp : List String) (noun : String) :
    ∀ (ys : List DF) (i : Nat) (rest : List (List (String × List Int))),
      checkTail firstSnp noun i ys = .ok rest → ∀ y ∈ ys, y.snp = firstSnp := by
  intro ys
  induction ys with
  | nil => intro i rest _ y hy; cases hy
  | cons z zs ih =>
    intro i rest h y hy
    simp only [checkTail] at h
    cases hse : series_eq z.snp firstSnp with
    | false => rw [hse] at h; simp at h
    | true =>
      rw [hse] at h
      simp only [if_true] at h
      rcases List.mem_cons.mp hy with rfl | hmem
      · exact (series_eq_iff _ _).mp hse
      · cases hc : checkTail firstSnp noun (i + 1) zs with
        | error e => rw [hc] at h; simp [Except.map] at h
        | ok r2 => exact ih (i + 1) r2 hc y hmem

/-! # Claim theorems -/

/-- C1: for every ordered list of input files whose individual parses
succeed, `_read_fromlist` raises the validation error naming the dataset
kind whenever some file after the first has a `SNP` column differing from
the first file's (in length or element-wise value, i.e. as a list), and the
merge returns a table only when every later file's `SNP` column is
identical in values and order to the first file's (that column being the
key column of the result). -/
theorem read_fromlist_key_validation {α : Type} (f0 : α) (rest : List α) (pf : α → DF)
    (noun : String) :
    ((∃ g ∈ rest, (pf g).snp ≠ (pf f0).snp) →
      _read_fromlist (f0 :: rest) pf noun =
        .error (.valueError (noun ++ " files must have identical SNP columns."))) ∧
    (∀ out, _read_fromlist (f0 :: rest) pf noun = .ok out →
      (∀ g ∈ rest, (pf g).snp = (pf f0).snp) ∧ out.snp = (pf f0).snp) := by
  constructor
  · rintro ⟨g, hg, hne⟩
    simp only [_read_fromlist, List.map_cons]
    rw [checkTail_error (pf f0).snp noun (rest.map pf) 1
      ⟨pf g, List.mem_map_of_mem pf hg, hne⟩]
    rfl
  · intro out h
    simp only [_read_fromlist, List.map_cons] at h
    cases hc : checkTail (pf f0).snp noun 1 (rest.map pf) with
    | error e => rw [hc] at h; simp [Except.map] at h
    | ok r2 =>
      rw [hc] at h
      simp only [Except.map] at h
      refine ⟨fun g hg => checkTail_ok _ _ _ 1 r2 hc (pf g) (List.mem_map_of_mem pf hg), ?_⟩
      cases h
      rfl

/-- C1 witness: two files holding the same SNP set `\x7brs1, rs2\x7d` in different
orders are rejected with the validation error naming the dataset kind. -/
theorem read_fromlist_key_validation_witness :
    _read_fromlist [dfA, dfB] id "LD Score" =
      .error (.valueError "LD Score files must have identical SNP columns.") :=
  (read_fromlist_key_validation dfA [dfB] id "LD Score").1
    ⟨dfB, by decide, by decide⟩

/-- C3 counterexample: with an empty file list, no frequency file and
`num = 0`, the per-chromosome branch of `annot` returns the result
`(sum([]), 0) = (0, 0)` — it neither raises a `NameError` nor any other
error, refuting "for every input the per-chromosome overlap mode can never
return a result". -/
theorem annot_chr_degenerate_returns :
    annot trivParser noAccess [] (some 0) none = .ok (.intZero, 0) := rfl

/-- C3 (amended): whenever the file list is nonempty, or a frequency file
is supplied, the per-chromosome branch evaluates the undefined name
`sub_chr` before touching any file and raises `NameError` (for every parser
and filesystem); with an empty file list and no frequency file it instead
raises `np.hstack`'s `ValueError` when `num ≥ 1`, and returns `(0, 0)` when
`num = 0`. -/
theorem annot_chr_name_error :
    (∀ parser (acc : String → Bool) (f : String) (fs : List String) (n : Nat)
        (frq : Option String),
      annot parser acc (f :: fs) (some n) frq =
        .error (.nameError "global name sub_chr is not defined")) ∧
    (∀ parser (acc : String → Bool) (n : Nat) (f : String),
      annot parser acc [] (some n) (some f) =
        .error (.nameError "global name sub_chr is not defined")) ∧
    (∀ parser (acc : String → Bool) (n : Nat), 1 ≤ n →
      annot parser acc [] (some n) none =
        .error (.valueError "need at least one array to concatenate")) ∧
    (∀ parser (acc : String → Bool),
      annot parser acc [] (some 0) none = .ok (.intZero, 0)) := by
  refine ⟨?_, ?_, ?_, ?_⟩
  · intro parser acc f fs n frq
    simp only [annot, sub_chr, bindErrorL]
    rfl
  · intro parser acc n f
    simp only [annot, sub_chr, bindErrorL]
    rfl
  · intro parser acc n hn
    obtain ⟨m, rfl⟩ : ∃ m, n = m + 1 := ⟨n - 1, by omega⟩
    simp only [annot, List.range'_succ, List.foldlM_cons]
    rfl
  · intro parser acc
    rfl

/-- C3 witness for the amended claim: at `num = 1` the empty-list,
no-frequency-file call fails with `np.hstack`'s error, not a `NameError`. -/
theorem annot_chr_name_error_witness :
    annot trivParser allAccess [] (some 1) none =
      .error (.valueError "need at least one array to concatenate") :=
  annot_chr_name_error.2.2.1 trivParser allAccess 1 (by decide)

/-- C4: `_ldscore_chr` does not return the merged table for the canonical
pattern `chr\x7b1:23\x7d`: the shard list is pre-sized with `len(fh)` — the
pattern string's length, 9 — so writing the tenth of the 22 shards raises
`IndexError` (first conjunct: concrete run; second: it fails for every
filesystem and reader). -/
theorem ldscore_chr_presize_bug :
    _ldscore_chr allAccess ldSampleReader "chr\x7b1:23\x7d" =
      .error (.indexError "list assignment index out of range") ∧
    (∀ (acc : String → Bool) (reader : String → Option String → Except PyError PDF),
      (_ldscore_chr acc reader "chr\x7b1:23\x7d").isOk = false) := by
  constructor
  · rfl
  · intro acc reader
    have he : exp_array "chr\x7b1:23\x7d" = .ok expand22 := rfl
    unfold _ldscore_chr
    rw [he, bindOkL]
    exact isOk_false_bind _ _
      (ldscoreFill_overflow acc reader expand22
        (List.replicate (String.length "chr\x7b1:23\x7d") (.int 0)) 0
        (by decide) (by decide))

/-- C5: `_cts_chr` does not read shards as-is: it parses them with
`_ldscore_single`, so a shard carrying both legacy `MAF` and `CM` columns
loses them, and the result differs from the vertical concatenation of the
raw shard tables. -/
theorem cts_chr_not_as_is :
    _cts_chr allAccess ctsRawReader "c" = .ok ctsDropped ∧ ctsDropped ≠ ctsRaw :=
  ⟨rfl, by decide⟩

/-- C7: `cts_dummies` cuts column `i` — starting with the `SNP` string
column — rather than covariate column `i+1`; under Python 2's cross-type
comparison the range check then raises `All breaks lie outside the range of
cts variable.` on this well-formed one-covariate input, so no indicator
table is produced at all. -/
theorem cts_dummies_cuts_key_column :
    cts_dummies [("SNP", Col.strs ["rs1"]), ("A", Col.nums [1])] [[0]] =
      .error (.valueError "All breaks lie outside the range of cts variable.") := rfl

/-- C8: `which_compression` probes `fh+'.bz2'`, then `fh+'.gz'`, then the
bare `fh`, in that priority order, returning the matched suffix and codec
tag, and raises `IOError` exactly when none of the three is readable. -/
theorem which_compression_priority (acc : String → Bool) (fh : String) :
    (acc (fh ++ ".bz2") = true → which_compression acc fh = .ok (".bz2", some "bz2")) ∧
    (acc (fh ++ ".bz2") = false → acc (fh ++ ".gz") = true →
      which_compression acc fh = .ok (".gz", some "gzip")) ∧
    (acc (fh ++ ".bz2") = false → acc (fh ++ ".gz") = false → acc fh = true →
      which_compression acc fh = .ok ("", none)) ∧
    ((which_compression acc fh).isOk = false ↔
      acc (fh ++ ".bz2") = false ∧ acc (fh ++ ".gz") = false ∧ acc fh = false) := by
  unfold which_compression
  rcases h1 : acc (fh ++ ".bz2") <;> rcases h2 : acc (fh ++ ".gz") <;> rcases h3 : acc fh <;>
    simp [h1, h2, h3, Except.isOk] <;> rfl

/-- C8 witness: on a filesystem holding only `foo.gz`, resolving `foo`
returns suffix `.gz` with the gzip codec. -/
theorem which_compression_priority_witness :
    which_compression gzOnly "foo" = .ok (".gz", some "gzip") :=
  (which_compression_priority gzOnly "foo").2.1 (by decide) (by decide)

/-- C10: `_M_chr` never returns the summed vector: `np.sum` is handed a
generator, so it falls back to Python's builtin `sum`, which adds the first
per-shard float list to the integer start `0` and raises `TypeError` (first
conjunct: concrete run on pattern `x`, i.e. file `x.l2.M`; second: it fails
for every reader). -/
theorem M_chr_generator_type_error :
    _M_chr mSampleReader "x" 2 false =
      .error (.typeError "unsupported operand type for +: int and list") ∧
    (∀ reader : String → Except PyError (List Int),
      (_M_chr reader "x" 2 false).isOk = false) := by
  constructor
  · rfl
  · intro reader
    have h1 : _M_chr reader "x" 2 false =
        ((reader "x.l2.M" >>= fun _ =>
            (Except.error (.typeError "unsupported operand type for +: int and list") :
              Except PyError NpVal)) >>= fun x =>
          match x with
          | .int _ => Except.error (.typeError "object of type int has no len()")
          | .arr v => Except.ok [v]) := rfl
    rw [h1]
    cases hr : reader "x.l2.M" with
    | error e => rfl
    | ok v => rfl

theorem dotL_map (f g : List Int → Int) (A : List (List Int)) :
    dotL (A.map f) (A.map g) = (A.map (fun r => f r * g r)).sum := by
  unfold dotL
  rw [List.zip_map', List.map_map]
  rfl

/-- `np.dot(m.T, m)` is exactly the overlap matrix the spec describes. -/
theorem np_dot_transposeM_eq_overlapGram (A : List (List Int)) :
    np_dot (transposeM A) A = overlapGram A := by
  unfold np_dot transposeM overlapGram column
  rw [List.map_map]
  refine List.map_congr_left (fun i _ => ?_)
  refine List.map_congr_left (fun j _ => ?_)
  exact dotL_map _ _ A

theorem getD_map_range {α : Type} (F : Nat → α) (d : α) (k i : Nat) (h : i < k) :
    (((List.range k).map F).getD i d) = F i := by
  rw [List.getD_eq_getElem?_getD, List.getElem?_map, List.getElem?_range h]
  rfl

theorem getD_zero_or_one {r : List Int} (hr : ∀ x ∈ r, x = 0 ∨ x = 1) (i : Nat) :
    r.getD i 0 = 0 ∨ r.getD i 0 = 1 := by
  rcases Nat.lt_or_ge i r.length with hlt | hge
  · have : r.getD i 0 ∈ r := by
      rw [List.getD_eq_getElem?_getD, List.getElem?_eq_getElem hlt]
      exact List.getElem_mem hlt
    exact hr _ this
  · exact Or.inl (List.getD_eq_default r 0 hge)

theorem sum_sq_count (i : Nat) :
    ∀ (A : List (List Int)), (∀ r ∈ A, ∀ x ∈ r, x = 0 ∨ x = 1) →
      (A.map (fun r => r.getD i 0 * r.getD i 0)).sum =
        ((A.filter (fun r => r.getD i 0 = 1)).length : Int) := by
  intro A
  induction A with
  | nil => intro _; rfl
  | cons r rs ih =>
    intro h
    have hr := getD_zero_or_one (h r (List.mem_cons_self r rs)) i
    have hrest := ih (fun q hq => h q (List.mem_cons_of_mem r hq))
    rcases hr with h0 | h1
    · simp only [List.map_cons, List.sum_cons, List.filter_cons, h0, hrest]
      norm_num
    · simp only [List.map_cons, List.sum_cons, List.filter_cons, h1, hrest]
      norm_num
      ring

/-- C9: in single-file mode (`num = None`), whenever the parses of the
annotation files succeed (`annotParseSingle` yields `dfs`) and their
non-key columns stack to the matrix `A`, `annot` returns
`(A-transpose times A, row count of the first parsed file)`; that matrix
equals the spec's overlap matrix (entry `(i,j)` = dot product of columns
`i` and `j` over variants), is square and symmetric, and for a 0/1 matrix
its diagonal entry `(i,i)` counts the `1`s in column `i`. -/
theorem annot_single_overlap
    (parser : String → Option String → Option String → Option String → Except PyError AnnotDF)
    (acc : String → Bool) (fh_list : List String) (frq : Option String)
    (dfs : List AnnotDF) (A : List (List Int))
    (hparse : annotParseSingle parser acc fh_list frq = .ok dfs)
    (hstack : np_hstack (dfs.map AnnotDF.mat) = .ok A) :
    annot parser acc fh_list .none frq =
      .ok (.mat (np_dot (transposeM A) A), (dfs.headD ⟨[]⟩).rows.length) ∧
    np_dot (transposeM A) A = overlapGram A ∧
    (np_dot (transposeM A) A).length = width A ∧
    (∀ row ∈ np_dot (transposeM A) A, row.length = width A) ∧
    (∀ i j, i < width A → j < width A →
      ((np_dot (transposeM A) A).getD i []).getD j 0 =
        ((np_dot (transposeM A) A).getD j []).getD i 0) ∧
    ((∀ r ∈ A, ∀ x ∈ r, x = 0 ∨ x = 1) → ∀ i, i < width A →
      ((np_dot (transposeM A) A).getD i []).getD i 0 =
        ((A.filter (fun r => r.getD i 0 = 1)).length : Int)) := by
  refine ⟨?_, np_dot_transposeM_eq_overlapGram A, ?_, ?_, ?_, ?_⟩
  · cases dfs with
    | nil => simp [np_hstack] at hstack
    | cons d ds =>
      simp only [annot]
      rw [hparse, bindOkL, hstack, bindOkL]
      rfl
  · simp [np_dot, transposeM, List.length_map, List.length_range]
  · intro row hrow
    obtain ⟨b, _, rfl⟩ := List.mem_map.mp hrow
    simp [List.length_map, List.length_range]
  · intro i j hi hj
    rw [np_dot_transposeM_eq_overlapGram]
    unfold overlapGram
    rw [getD_map_range _ _ _ _ hi, getD_map_range _ _ _ _ hj,
      getD_map_range _ _ _ _ hj, getD_map_range _ _ _ _ hi]
    exact congrArg List.sum (List.map_congr_left (fun r _ => mul_comm _ _))
  · intro h01 i hi
    rw [np_dot_transposeM_eq_overlapGram]
    unfold overlapGram
    rw [getD_map_range _ _ _ _ hi, getD_map_range _ _ _ _ hi]
    exact sum_sq_count i A h01

/-- C9 witness: one annotation file with 10 variants and 3 0/1 categories:
the result is the symmetric overlap matrix with the columns' 1-counts
`4, 5, 5` on the diagonal, and `M_tot = 10`. -/
theorem annot_single_overlap_witness :
    annot annotSampleParser allAccess ["f"] .none .none =
      .ok (.mat [[4, 2, 0], [2, 5, 2], [0, 2, 5]], 10) := by
  have h := (annot_single_overlap annotSampleParser allAccess ["f"] .none
    [annotSample] annotSample.mat rfl rfl).1
  exact h.trans (by decide)

theorem foldl_min_le (x : Int) (xs : List Int) :
    xs.foldl min x ≤ x ∧ ∀ y ∈ xs, xs.foldl min x ≤ y := by
  induction xs generalizing x with
  | nil => exact ⟨le_refl x, by simp⟩
  | cons a t ih =>
    constructor
    · exact le_trans (ih (min x a)).1 (min_le_left x a)
    · intro y hy
      rcases List.mem_cons.mp hy with rfl | hmem
      · exact le_trans (ih (min x y)).1 (min_le_right x y)
      · exact (ih (min x a)).2 y hmem

theorem listMinInt_le (l : List Int) (m : Int) (h : listMinInt l = some m) :
    ∀ x ∈ l, m ≤ x := by
  cases l with
  | nil => cases h
  | cons a t =>
    injection h with h
    subst h
    intro x hx
    rcases List.mem_cons.mp hx with rfl | hmem
    · exact (foldl_min_le x t).1
    · exact (foldl_min_le a t).2 x hmem

theorem adjNondecreasing_chain :
    ∀ (l : List Int), adjNondecreasing l = true → List.Chain' (· ≤ ·) l := by
  intro l
  induction l with
  | nil => intro _; exact List.chain'_nil
  | cons a t ih =>
    cases t with
    | nil => intro _; simp
    | cons b t2 =>
      intro h
      simp only [adjNondecreasing, Bool.and_eq_true, decide_eq_true_eq] at h
      exact List.chain'_cons.mpr ⟨h.1, ih h.2⟩

theorem chain'_head_le (e : Int) (t : List Int) (hch : List.Chain' (· ≤ ·) (e :: t)) :
    ∀ x ∈ e :: t, e ≤ x := by
  have hp := List.chain'_iff_pairwise.mp hch
  intro x hx
  rcases List.mem_cons.mp hx with rfl | hmem
  · exact le_refl x
  · exact (List.pairwise_cons.mp hp).1 x hmem

/-- Where a `pd.cut` assignment lands for a value that is itself one of the
sorted bin edges (and above the lowest edge): the first interval
`(edges[j], edges[j+1]]` containing it has the value as its UPPER edge. -/
theorem pdCutAssign_upper :
    ∀ (edges : List Int) (labels : List String) (v : Int),
      List.Chain' (· ≤ ·) edges → v ∈ edges →
      (∀ e0, edges.head? = some e0 → e0 < v) →
      labels.length + 1 = edges.length →
      ∃ j lab, pdCutAssign edges labels v = some lab ∧ labels[j]? = some lab ∧
        edges[j + 1]? = some v := by
  intro edges
  induction edges with
  | nil => intro labels v _ hv _ _; cases hv
  | cons e0 rest ih =>
    intro labels v hch hv hhead hlen
    have he0 : e0 < v := hhead e0 rfl
    cases rest with
    | nil =>
      rcases List.mem_cons.mp hv with rfl | hm
      · exact absurd he0 (lt_irrefl v)
      · cases hm
    | cons e1 rest2 =>
      cases labels with
      | nil => simp at hlen
      | cons l ls =>
        have hv1 : v ∈ e1 :: rest2 := by
          rcases List.mem_cons.mp hv with rfl | hm
          · exact absurd he0 (lt_irrefl v)
          · exact hm
        have he1v : e1 ≤ v := chain'_head_le e1 rest2 hch.tail v hv1
        by_cases hle : v ≤ e1
        · have hveq : v = e1 := le_antisymm hle he1v
          refine ⟨0, l, ?_, List.getElem?_cons_zero, ?_⟩
          · show (if e0 < v ∧ v ≤ e1 then some l else pdCutAssign (e1 :: rest2) ls v) =
              some l
            rw [if_pos ⟨he0, hle⟩]
          · rw [List.getElem?_cons_succ, List.getElem?_cons_zero, hveq]
        · push_neg at hle
          have hstep : pdCutAssign (e0 :: e1 :: rest2) (l :: ls) v =
              pdCutAssign (e1 :: rest2) ls v := by
            show (if e0 < v ∧ v ≤ e1 then some l else pdCutAssign (e1 :: rest2) ls v) =
              pdCutAssign (e1 :: rest2) ls v
            rw [if_neg (by rintro ⟨_, h2⟩; exact absurd h2 (not_le.mpr hle))]
          obtain ⟨j, lab, h1, h2, h3⟩ := ih ls v hch.tail hv1
            (fun e he => by injection he with he; subst he; exact hle)
            (by simpa using hlen)
          exact ⟨j + 1, lab, by rw [hstep]; exact h1,
            by rw [List.getElem?_cons_succ]; exact h2,
            by rw [List.getElem?_cons_succ]; exact h3⟩

theorem mem_cutBreaksWithSentinels {b : Int} (breaks : List Int) (mx mn : Int)
    (hb : b ∈ breaks) : b ∈ cutBreaksWithSentinels breaks mx mn := by
  simp only [cutBreaksWithSentinels]
  split_ifs <;> simp [hb]

/-- C6 (amended): for every covariate vector and user breakpoint list
accepted by `_cut_cts`, a covariate value exactly equal to a user
breakpoint is assigned (a real label, not NaN) to the bin whose sorted
bound list has that breakpoint as its UPPER, inclusive bound — pandas
`cut`'s default left-open right-closed `(prev_b, b]` convention — not the
lower-inclusive `[b, next_b)` bin the claim states. -/
theorem cut_cts_breakpoint_upper
    (vec breaks : List Int) (n : String) (labels : List String)
    (res : List (Option String)) (mx mn : Int)
    (hmx : listMaxInt vec = some mx) (hmn : listMinInt vec = some mn)
    (h : _cut_cts (Col.nums vec) breaks n = .ok (labels, res))
    (idx : Nat) (v : Int) (hv : vec[idx]? = some v) (hb : v ∈ breaks) :
    ∃ j lab, res[idx]? = some (some lab) ∧ labels[j]? = some lab ∧
      (cutBinsOf breaks mx mn)[j + 1]? = some v := by
  have hvmemvec : v ∈ vec := by
    obtain ⟨hlt, rfl⟩ := List.getElem?_eq_some.mp hv
    exact List.getElem_mem hlt
  simp only [_cut_cts, hmx, hmn] at h
  split at h
  · exact Except.noConfusion h
  simp only [pd_cut] at h
  split at h
  · exact Except.noConfusion h
  split at h
  · exact Except.noConfusion h
  split at h
  · exact Except.noConfusion h
  rename_i hguard hadj hlen hnodup
  have hp := Except.ok.inj h
  rw [Prod.mk.injEq] at hp
  obtain ⟨hlab, hres⟩ := hp
  have hadj' : adjNondecreasing (cutBinsOf breaks mx mn) = true := not_not.mp hadj
  have hch := adjNondecreasing_chain _ hadj'
  have hlen' : labels.length + 1 = (cutBinsOf breaks mx mn).length := by
    rw [← hlab]
    exact not_ne_iff.mp hlen
  have hvmem : v ∈ cutBinsOf breaks mx mn := by
    unfold cutBinsOf
    exact (List.perm_insertionSort _ _).mem_iff.mpr (mem_cutBreaksWithSentinels breaks mx mn hb)
  have hhead : ∀ e0, (cutBinsOf breaks mx mn).head? = some e0 → e0 < v := by
    intro e0 he0
    cases hbins : cutBinsOf breaks mx mn with
    | nil => rw [hbins] at he0; cases he0
    | cons b0 bt =>
      rw [hbins] at he0
      have he0' : e0 = b0 := by injection he0 with h'; exact h'.symm
      subst he0'
      have hle_all : ∀ x ∈ e0 :: bt, e0 ≤ x := chain'_head_le e0 bt (hbins ▸ hch)
      have hmnv : mn ≤ v := listMinInt_le vec mn hmn v hvmemvec
      by_cases hminapp :
          ((if breaks.all (fun b => b ≤ mx) then breaks ++ [mx + 1] else breaks).all
            (fun b => decide (mn ≤ b))) = true
      · have hmem : (mn - 1) ∈ cutBreaksWithSentinels breaks mx mn := by
          simp only [cutBreaksWithSentinels]
          rw [if_pos hminapp]
          simp
        have hmem2 : (mn - 1) ∈ cutBinsOf breaks mx mn :=
          (List.perm_insertionSort _ _).mem_iff.mpr hmem
        have h1 : e0 ≤ mn - 1 := hle_all _ (hbins ▸ hmem2)
        omega
      · have hex : ∃ b2 ∈ (if breaks.all (fun b => b ≤ mx) then breaks ++ [mx + 1]
            else breaks), ¬ (mn ≤ b2) := by
          simpa [List.all_eq_true] using hminapp
        obtain ⟨b2, hb2mem, hb2⟩ := hex
        have hmem : b2 ∈ cutBreaksWithSentinels breaks mx mn := by
          simp only [cutBreaksWithSentinels]
          rw [if_neg hminapp]
          exact hb2mem
        have hmem2 : b2 ∈ cutBinsOf breaks mx mn :=
          (List.perm_insertionSort _ _).mem_iff.mpr hmem
        have h1 : e0 ≤ b2 := hle_all _ (hbins ▸ hmem2)
        omega
  obtain ⟨j, lab, h1, h2, h3⟩ :=
    pdCutAssign_upper (cutBinsOf breaks mx mn) labels v hch hvmem hhead hlen'
  refine ⟨j, lab, ?_, h2, h3⟩
  rw [← hres, List.getElem?_map, hv]
  rw [hlab]
  show some (pdCutAssign (cutBinsOf breaks mx mn) labels v) = some (some lab)
  rw [h1]

/-- C6 counterexample: the covariate value `5` equals the user breakpoint
`5`, and `pd.cut`'s default `right=True` convention assigns it the label
`cmin_5` — the bin with `5` as its UPPER bound, shared with the value `0` —
whereas the claimed half-open-right `[b, next_b)` semantics would place it
in `c5_max` (the bin whose sorted bound list has `5` as lower inclusive
bound, shared with the value `10`). -/
theorem cut_cts_breakpoint_lower_counterexample :
    _cut_cts (Col.nums [0, 5, 10]) [5] "c" =
      .ok (["cmin_5", "c5_max"], [some "cmin_5", some "cmin_5", some "c5_max"]) ∧
    (some "cmin_5" : Option String) ≠ some "c5_max" := ⟨rfl, by decide⟩

/-- C6 witness: applying the amended theorem to the vector `[0, 5, 10]`
with breakpoint list `[5]` places the value `5` in the bin whose upper
edge (position `j+1` of the sorted bins `[-1, 5, 11]`) is `5`. -/
theorem cut_cts_breakpoint_upper_witness :
    ∃ j lab,
      ([some "cmin_5", some "cmin_5", some "c5_max"] : List (Option String))[1]? =
        some (some lab) ∧
      (["cmin_5", "c5_max"] : List String)[j]? = some lab ∧
      (cutBinsOf [5] 10 0)[j + 1]? = some 5 :=
  cut_cts_breakpoint_upper [0, 5, 10] [5] "c" ["cmin_5", "c5_max"]
    [some "cmin_5", some "cmin_5", some "c5_max"] 10 0 rfl rfl rfl 1 5 rfl (by decide)

theorem takeWhile_append_of_all (p : Char → Bool) (xs : List Char)
    (hxs : xs.all p = true) (y : Char) (hy : p y = false) (ys : List Char) :
    (xs ++ y :: ys).takeWhile p = xs := by
  induction xs with
  | nil => simp [List.takeWhile_cons, hy]
  | cons a t ih =>
    simp only [List.all_cons, Bool.and_eq_true] at hxs
    simp [List.takeWhile_cons, hxs.1, ih hxs.2]

theorem dropWhile_append_of_all (p : Char → Bool) (xs : List Char)
    (hxs : xs.all p = true) (y : Char) (hy : p y = false) (ys : List Char) :
    (xs ++ y :: ys).dropWhile p = y :: ys := by
  induction xs with
  | nil => simp [List.dropWhile_cons, hy]
  | cons a t ih =>
    simp only [List.all_cons, Bool.and_eq_true] at hxs
    simp [List.dropWhile_cons, hxs.1, ih hxs.2]

theorem matchMarker_none (c : Char) (cs : List Char) (h : c ≠ lbrace) :
    matchMarker (c :: cs) = none := by
  simp [matchMarker, h]

theorem matchMarker_marker (d1 d2 suf : List Char) (h1 : d1.all Char.isDigit = true)
    (h1n : d1 ≠ []) (h2 : d2.all Char.isDigit = true) (h2n : d2 ≠ []) :
    matchMarker (lbrace :: (d1 ++ ':' :: (d2 ++ rbrace :: suf))) = some (d1, d2, suf) := by
  have ht1 := takeWhile_append_of_all Char.isDigit d1 h1 ':' (by decide) (d2 ++ rbrace :: suf)
  have hd1 := dropWhile_append_of_all Char.isDigit d1 h1 ':' (by decide) (d2 ++ rbrace :: suf)
  have ht2 := takeWhile_append_of_all Char.isDigit d2 h2 rbrace (by decide) suf
  have hd2 := dropWhile_append_of_all Char.isDigit d2 h2 rbrace (by decide) suf
  simp [matchMarker, ht1, hd1, ht2, hd2, h1n, h2n]

theorem matchLeftAt_none (c : Char) (cs : List Char) (h : c ≠ lbrace) :
    matchLeftAt (c :: cs) = none := by
  simp [matchLeftAt, h]

theorem matchLeftAt_marker (d1 : List Char) (h1 : d1.all Char.isDigit = true)
    (h1n : d1 ≠ []) (rest : List Char) :
    matchLeftAt (lbrace :: (d1 ++ ':' :: rest)) = some d1 := by
  have ht := takeWhile_append_of_all Char.isDigit d1 h1 ':' (by decide) rest
  have hd := dropWhile_append_of_all Char.isDigit d1 h1 ':' (by decide) rest
  simp [matchLeftAt, ht, hd, h1n]

theorem matchRightAt_none (c : Char) (cs : List Char) (h : c ≠ ':') :
    matchRightAt (c :: cs) = none := by
  simp [matchRightAt, h]

theorem matchRightAt_colon (d2 suf : List Char) (h2 : d2.all Char.isDigit = true)
    (h2n : d2 ≠ []) :
    matchRightAt (':' :: (d2 ++ rbrace :: suf)) = some d2 := by
  have ht := takeWhile_append_of_all Char.isDigit d2 h2 rbrace (by decide) suf
  have hd := dropWhile_append_of_all Char.isDigit d2 h2 rbrace (by decide) suf
  simp [matchRightAt, ht, hd, h2n]

theorem dropWhile_head_not_rbrace (r : List Char) :
    ∀ (t : List Char), (∀ c ∈ t, c ≠ rbrace) →
      ∃ h2 rest, (t ++ lbrace :: r).dropWhile Char.isDigit = h2 :: rest ∧ h2 ≠ rbrace := by
  intro t
  induction t with
  | nil =>
    intro _
    refine ⟨lbrace, r, ?_, by decide⟩
    have : Char.isDigit lbrace = false := by decide
    simp [List.dropWhile_cons, this]
  | cons c t ih =>
    intro ht
    by_cases hc : Char.isDigit c
    · have := ih (fun x hx => ht x (List.mem_cons_of_mem c hx))
      simpa [List.dropWhile_cons, hc] using this
    · exact ⟨c, t ++ lbrace :: r, by simp [List.dropWhile_cons, hc],
        ht c (List.mem_cons_self c t)⟩

/-- A closing-fragment match that starts inside brace-free text cannot
succeed: the digit run it scans stops no later than the `\x7b` that opens the
real marker, and the stopping character is never `\x7d`. -/
theorem matchRightAt_cross (t : List Char) (ht : ∀ c ∈ t, c ≠ rbrace) (r : List Char) :
    matchRightAt (':' :: (t ++ lbrace :: r)) = none := by
  obtain ⟨h2, rest, hd, hne⟩ := dropWhile_head_not_rbrace r t ht
  by_cases hdig : (t ++ lbrace :: r).takeWhile Char.isDigit = []
  · simp [matchRightAt, hdig]
  · simp [matchRightAt, hdig, hd, hne]

theorem countMarkersFuel_step (f : Nat) (c : Char) (cs : List Char)
    (h : matchMarker (c :: cs) = none) :
    countMarkersFuel (f + 1) (c :: cs) = countMarkersFuel f cs := by
  simp only [countMarkersFuel, h]

theorem countMarkersFuel_found (f : Nat) (c : Char) (cs d1 d2 rest : List Char)
    (h : matchMarker (c :: cs) = some (d1, d2, rest)) :
    countMarkersFuel (f + 1) (c :: cs) = 1 + countMarkersFuel f rest := by
  simp only [countMarkersFuel, h]

theorem searchLeftFuel_step (f : Nat) (c : Char) (cs : List Char)
    (h : matchLeftAt (c :: cs) = none) :
    searchLeftFuel (f + 1) (c :: cs) = searchLeftFuel f cs := by
  simp only [searchLeftFuel, h]

theorem searchLeftFuel_found (f : Nat) (c : Char) (cs d : List Char)
    (h : matchLeftAt (c :: cs) = some d) :
    searchLeftFuel (f + 1) (c :: cs) = some d := by
  simp only [searchLeftFuel, h]

theorem searchRightFuel_step (f : Nat) (c : Char) (cs : List Char)
    (h : matchRightAt (c :: cs) = none) :
    searchRightFuel (f + 1) (c :: cs) = searchRightFuel f cs := by
  simp only [searchRightFuel, h]

theorem searchRightFuel_found (f : Nat) (c : Char) (cs d : List Char)
    (h : matchRightAt (c :: cs) = some d) :
    searchRightFuel (f + 1) (c :: cs) = some d := by
  simp only [searchRightFuel, h]

theorem subMarkerFuel_step (repl : List Char) (f : Nat) (c : Char) (cs : List Char)
    (h : matchMarker (c :: cs) = none) :
    subMarkerFuel repl (f + 1) (c :: cs) = c :: subMarkerFuel repl f cs := by
  simp only [subMarkerFuel, h]

theorem subMarkerFuel_found (repl : List Char) (f : Nat) (c : Char) (cs d1 d2 rest : List Char)
    (h : matchMarker (c :: cs) = some (d1, d2, rest)) :
    subMarkerFuel repl (f + 1) (c :: cs) = repl ++ subMarkerFuel repl f rest := by
  simp only [subMarkerFuel, h]

theorem countMarkersFuel_nobrace (l : List Char) (h : NoBrace l) :
    ∀ fuel, countMarkersFuel fuel l = 0 := by
  induction l with
  | nil => intro fuel; cases fuel <;> rfl
  | cons c cs ih =>
    intro fuel
    cases fuel with
    | zero => rfl
    | succ f =>
      simp only [countMarkersFuel, matchMarker_none c cs (h c (List.mem_cons_self c cs)).1]
      exact ih (fun x hx => h x (List.mem_cons_of_mem c hx)) f

theorem countMarkersFuel_marker (d1 d2 suf : List Char) (h1 : d1.all Char.isDigit = true)
    (h1n : d1 ≠ []) (h2 : d2.all Char.isDigit = true) (h2n : d2 ≠ []) (hsuf : NoBrace suf) :
    ∀ (pre : List Char), NoBrace pre → ∀ fuel,
      (pre ++ lbrace :: (d1 ++ ':' :: (d2 ++ rbrace :: suf))).length ≤ fuel →
      countMarkersFuel fuel (pre ++ lbrace :: (d1 ++ ':' :: (d2 ++ rbrace :: suf))) = 1 := by
  intro pre
  induction pre with
  | nil =>
    intro _ fuel hf
    simp only [List.nil_append] at hf ⊢
    cases fuel with
    | zero => exact absurd hf (by simp)
    | succ f =>
      simp only [countMarkersFuel, matchMarker_marker d1 d2 suf h1 h1n h2 h2n]
      rw [countMarkersFuel_nobrace suf hsuf f]
  | cons c pre' ih =>
    intro hpre fuel hf
    cases fuel with
    | zero => exact absurd hf (by simp)
    | succ f =>
      have hc : c ≠ lbrace := (hpre c (List.mem_cons_self c pre')).1
      simp only [List.cons_append, countMarkersFuel, matchMarker_none c _ hc]
      exact ih (fun x hx => hpre x (List.mem_cons_of_mem c hx)) f
        (by simp only [List.cons_append, List.length_cons] at hf; omega)

theorem searchLeftFuel_marker (d1 : List Char) (h1 : d1.all Char.isDigit = true)
    (h1n : d1 ≠ []) (rest : List Char) :
    ∀ (pre : List Char), NoBrace pre → ∀ fuel,
      (pre ++ lbrace :: (d1 ++ ':' :: rest)).length ≤ fuel →
      searchLeftFuel fuel (pre ++ lbrace :: (d1 ++ ':' :: rest)) = some d1 := by
  intro pre
  induction pre with
  | nil =>
    intro _ fuel hf
    simp only [List.nil_append] at hf ⊢
    cases fuel with
    | zero => exact absurd hf (by simp)
    | succ f =>
      simp only [searchLeftFuel, matchLeftAt_marker d1 h1 h1n rest]
  | cons c pre' ih =>
    intro hpre fuel hf
    cases fuel with
    | zero => exact absurd hf (by simp)
    | succ f =>
      have hc : c ≠ lbrace := (hpre c (List.mem_cons_self c pre')).1
      simp only [List.cons_append, searchLeftFuel, matchLeftAt_none c _ hc]
      exact ih (fun x hx => hpre x (List.mem_cons_of_mem c hx)) f
        (by simp only [List.cons_append, List.length_cons] at hf; omega)

theorem digit_ne_colon {c : Char} (h : Char.isDigit c = true) : c ≠ ':' := by
  intro hc
  subst hc
  exact absurd h (by decide)

theorem searchRightFuel_digits (d2 suf : List Char) (h2 : d2.all Char.isDigit = true)
    (h2n : d2 ≠ []) :
    ∀ (ds : List Char), ds.all Char.isDigit = true → ∀ fuel,
      (ds ++ ':' :: (d2 ++ rbrace :: suf)).length ≤ fuel →
      searchRightFuel fuel (ds ++ ':' :: (d2 ++ rbrace :: suf)) = some d2 := by
  intro ds
  induction ds with
  | nil =>
    intro _ fuel hf
    simp only [List.nil_append] at hf ⊢
    cases fuel with
    | zero => exact absurd hf (by simp)
    | succ f =>
      simp only [searchRightFuel, matchRightAt_colon d2 suf h2 h2n]
  | cons c ds' ih =>
    intro hds fuel hf
    simp only [List.all_cons, Bool.and_eq_true] at hds
    cases fuel with
    | zero => exact absurd hf (by simp)
    | succ f =>
      simp only [List.cons_append, searchRightFuel,
        matchRightAt_none c _ (digit_ne_colon hds.1)]
      exact ih hds.2 f (by simp only [List.cons_append, List.length_cons] at hf; omega)

theorem searchRightFuel_marker (d1 d2 suf : List Char) (h1 : d1.all Char.isDigit = true)
    (h2 : d2.all Char.isDigit = true) (h2n : d2 ≠ []) :
    ∀ (pre : List Char), NoBrace pre → ∀ fuel,
      (pre ++ lbrace :: (d1 ++ ':' :: (d2 ++ rbrace :: suf))).length ≤ fuel →
      searchRightFuel fuel (pre ++ lbrace :: (d1 ++ ':' :: (d2 ++ rbrace :: suf))) = some d2 := by
  intro pre
  induction pre with
  | nil =>
    intro _ fuel hf
    simp only [List.nil_append] at hf ⊢
    cases fuel with
    | zero => exact absurd hf (by simp)
    | succ f =>
      have hlb : (lbrace : Char) ≠ ':' := by decide
      simp only [searchRightFuel, matchRightAt_none lbrace _ hlb]
      exact searchRightFuel_digits d2 suf h2 h2n d1 h1 f
        (by simp only [List.length_cons] at hf; omega)
  | cons c pre' ih =>
    intro hpre fuel hf
    cases fuel with
    | zero => exact absurd hf (by simp)
    | succ f =>
      have hrec := ih (fun x hx => hpre x (List.mem_cons_of_mem c hx)) f
        (by simp only [List.cons_append, List.length_cons] at hf; omega)
      rw [List.cons_append]
      by_cases hc : c = ':'
      · subst hc
        rw [searchRightFuel_step f ':' _ (matchRightAt_cross pre'
          (fun x hx => (hpre x (List.mem_cons_of_mem ':' hx)).2)
          (d1 ++ ':' :: (d2 ++ rbrace :: suf)))]
        exact hrec
      · rw [searchRightFuel_step f c _ (matchRightAt_none c _ hc)]
        exact hrec

theorem subMarkerFuel_nobrace (repl : List Char) (l : List Char) (h : NoBrace l) :
    ∀ fuel, subMarkerFuel repl fuel l = l := by
  induction l with
  | nil => intro fuel; cases fuel <;> rfl
  | cons c cs ih =>
    intro fuel
    cases fuel with
    | zero => rfl
    | succ f =>
      simp only [subMarkerFuel, matchMarker_none c cs (h c (List.mem_cons_self c cs)).1]
      rw [ih (fun x hx => h x (List.mem_cons_of_mem c hx)) f]

theorem subMarkerFuel_marker (repl d1 d2 suf : List Char) (h1 : d1.all Char.isDigit = true)
    (h1n : d1 ≠ []) (h2 : d2.all Char.isDigit = true) (h2n : d2 ≠ []) (hsuf : NoBrace suf) :
    ∀ (pre : List Char), NoBrace pre → ∀ fuel,
      (pre ++ lbrace :: (d1 ++ ':' :: (d2 ++ rbrace :: suf))).length ≤ fuel →
      subMarkerFuel repl fuel (pre ++ lbrace :: (d1 ++ ':' :: (d2 ++ rbrace :: suf))) =
        pre ++ repl ++ suf := by
  intro pre
  induction pre with
  | nil =>
    intro _ fuel hf
    simp only [List.nil_append] at hf ⊢
    cases fuel with
    | zero => exact absurd hf (by simp)
    | succ f =>
      simp only [subMarkerFuel, matchMarker_marker d1 d2 suf h1 h1n h2 h2n]
      rw [subMarkerFuel_nobrace repl suf hsuf f]
  | cons c pre' ih =>
    intro hpre fuel hf
    cases fuel with
    | zero => exact absurd hf (by simp)
    | succ f =>
      have hc : c ≠ lbrace := (hpre c (List.mem_cons_self c pre')).1
      rw [List.cons_append, subMarkerFuel_step repl f c _ (matchMarker_none c _ hc),
        ih (fun x hx => hpre x (List.mem_cons_of_mem c hx)) f
          (by simp only [List.cons_append, List.length_cons] at hf; omega)]
      rfl

/-- C2 (amended): for a filename of the shape `pre\x7blo:hi\x7dsuf` in which `pre`
and `suf` contain no brace characters (so the string contains exactly one
range marker and no stray partial-marker text before it), `exp_array`
returns `pre ++ str(i) ++ suf` for `i` in the half-open `[lo, hi)` in
increasing order; a string with no marker yields the one-element sequence
with the string unchanged; and a string with more than one marker raises
the format error.  (In general `lo`/`hi` are read from the FIRST occurrence
of an opening fragment `\x7bdigits:` and of a closing fragment `:digits\x7d`,
which stray partial-marker text can make disagree with the unique full
marker — see the counterexample.)  No filesystem access occurs: `exp_array`
is a pure function of the string. -/
theorem exp_array_spec :
    (∀ (pre d1 d2 suf : List Char), NoBrace pre → NoBrace suf →
      d1.all Char.isDigit = true → d1 ≠ [] → d2.all Char.isDigit = true → d2 ≠ [] →
      exp_array ⟨pre ++ lbrace :: (d1 ++ ':' :: (d2 ++ rbrace :: suf))⟩ =
        .ok ((List.range' (digitsToNat d1) (digitsToNat d2 - digitsToNat d1)).map
          (fun i => String.mk (pre ++ (Nat.repr i).data ++ suf)))) ∧
    (∀ s : String, countMarkersFuel s.data.length s.data = 0 → exp_array s = .ok [s]) ∧
    (∀ s : String, 1 < countMarkersFuel s.data.length s.data →
      exp_array s = .error (.valueError "Can only have one array \x7ba:b\x7d per filename.")) := by
  refine ⟨?_, ?_, ?_⟩
  · intro pre d1 d2 suf hpre hsuf h1 h1n h2 h2n
    have hc := countMarkersFuel_marker d1 d2 suf h1 h1n h2 h2n hsuf pre hpre
      (pre ++ lbrace :: (d1 ++ ':' :: (d2 ++ rbrace :: suf))).length (le_refl _)
    have hl := searchLeftFuel_marker d1 h1 h1n (d2 ++ rbrace :: suf) pre hpre
      (pre ++ lbrace :: (d1 ++ ':' :: (d2 ++ rbrace :: suf))).length (le_refl _)
    have hr := searchRightFuel_marker d1 d2 suf h1 h2 h2n pre hpre
      (pre ++ lbrace :: (d1 ++ ':' :: (d2 ++ rbrace :: suf))).length (le_refl _)
    have hs : ∀ i : Nat,
        subMarkerFuel (Nat.repr i).data
          (pre ++ lbrace :: (d1 ++ ':' :: (d2 ++ rbrace :: suf))).length
          (pre ++ lbrace :: (d1 ++ ':' :: (d2 ++ rbrace :: suf))) =
          pre ++ (Nat.repr i).data ++ suf := fun i =>
      subMarkerFuel_marker (Nat.repr i).data d1 d2 suf h1 h1n h2 h2n hsuf pre hpre
        (pre ++ lbrace :: (d1 ++ ':' :: (d2 ++ rbrace :: suf))).length (le_refl _)
    simp only [exp_array, hc, hl, hr]
    rw [if_neg (by norm_num), if_neg (by norm_num)]
    exact congrArg Except.ok (List.map_congr_left (fun i _ => congrArg String.mk (hs i)))
  · intro s h0
    simp only [exp_array, h0]
    norm_num
  · intro s hgt
    simp only [exp_array]
    rw [if_pos hgt]

/-- C2 counterexample: `\x7b3:\x7b1:2\x7d` contains exactly one full range marker,
`\x7b1:2\x7d`, so the claim demands the one-element expansion `["\x7b3:1"]`
(`i = 1` in `[1, 2)`); but the code reads `lo = 3` from the FIRST opening
fragment `\x7b3:` and `hi = 2` from `:2\x7d`, and `xrange(3, 2)` is empty, so
`exp_array` returns `[]`. -/
theorem exp_array_stray_prefix_counterexample :
    exp_array "\x7b3:\x7b1:2\x7d" = .ok [] ∧ ([] : List String) ≠ ["\x7b3:1"] :=
  ⟨rfl, by decide⟩

/-- C2 witness: the canonical chromosome pattern expands to the 22 paths
`chr1 .. chr22` (upper bound exclusive), by the amended theorem applied at
`pre = "chr"`, `lo = 1`, `hi = 23`, empty suffix. -/
theorem exp_array_spec_witness :
    exp_array "chr\x7b1:23\x7d" = .ok expand22 := by
  have h := exp_array_spec.1 ['c', 'h', 'r'] ['1'] ['2', '3'] []
    (by decide) (by decide) (by decide) (by decide) (by decide) (by decide)
  exact h.trans (by decide)

end LdscParse
